import Mathlib

/-!
Shallow embedding of the datatablesLocaleSort DataTables plugin.

The repository contains two revisions of the plugin: `src/js/DT_localesort.js`
(called the js revision below) and `src/unnamed/part_001` (the part_001
revision).  Both share the same rank-building core (classify, sort, walk
assigning ranks, scatter back by original row index) but differ in the
initialisation default for `caseInsensitive`, in the case folding applied
during normalization, in the ASCII branch of the sort comparator and in the
collator construction.  Both revisions are embedded; host-environment services
(JavaScript string builtins, `Intl.Collator`, the ambient browser language) are
passed explicitly as parameters.
-/

namespace DT

/-- A JavaScript string, modelled as its list of UTF-16 code units. -/
abbrev Str := List Nat

/-- Embeds `onlyAscii` / `onlyAsciiChars` of `buildStringLocaleMappedIntColumn`:
true iff no code unit of the string has a bit of the mask `0xFF80` set. -/
def onlyAscii (elem : Str) : Bool :=
  elem.all (fun c => Nat.land 0xFF80 c == 0)

/-- JavaScript ordinal (code-unit lexicographic) string comparison `x < y`. -/
def strLt : Str → Str → Bool
  | [], [] => false
  | [], _ :: _ => true
  | _ :: _, [] => false
  | a :: xs, b :: ys => if a < b then true else if b < a then false else strLt xs ys

/-- Three-way ordinal comparison derived from `strLt`, the shape used by the
part_001 comparator's ASCII branch: `x < y ? -1 : x > y ? 1 : 0`. -/
def strCmp3 (x y : Str) : Int :=
  if strLt x y then -1 else if strLt y x then 1 else 0

/-- Weak comparator laws for an `Int`-valued three-way comparison: the sign is
antisymmetric under swapping the arguments, and `≤ 0` is transitive. -/
structure CmpLawsW (cmp : Str → Str → Int) : Prop where
  flip : ∀ x y, cmp x y < 0 ↔ cmp y x > 0
  cmp_trans : ∀ x y z, cmp x y ≤ 0 → cmp y z ≤ 0 → cmp x z ≤ 0

/-- Full comparator laws: a weak comparator whose equivalence classes are
singletons, i.e. it reports 0 only on equal strings.  These are the spec's
assumptions on the active order: a strict weak ordering whose ties coincide
with equality of normalized values. -/
structure CmpLaws (cmp : Str → Str → Int) extends CmpLawsW cmp : Prop where
  eq_of : ∀ x y, cmp x y = 0 → x = y

/-- Lexicographic combination of two three-way comparators: the second breaks
the ties of the first. -/
def lexCmp (c1 c2 : Str → Str → Int) (x y : Str) : Int :=
  if c1 x y = 0 then c2 x y else c1 x y

/-- Modelled from the host environment: `String.prototype.toLowerCase`
restricted to the Latin-1 range (the locale-independent simple lowercase
mapping): `A`–`Z` and `À`–`Þ` except `×` gain 32, all other code units are
unchanged. -/
def lowerLatin1Unit (c : Nat) : Nat :=
  if 65 ≤ c ∧ c ≤ 90 then c + 32
  else if 192 ≤ c ∧ c ≤ 222 ∧ c ≠ 215 then c + 32
  else c

/-- Modelled from the host environment: locale-independent lowercasing of a
whole string over the Latin-1 range. -/
def lowerLatin1 (s : Str) : Str := s.map lowerLatin1Unit

/-- Modelled from the host environment: `String.prototype.toLowerCase` on
U+0130 (`İ`) yields `i` followed by U+0307 (combining dot above), since the
default (locale-independent) Unicode lowercase mapping of `İ` is `i̇`;
other code units fold as in Latin-1. -/
def lowerUnicodeTr (s : Str) : Str :=
  (s.map (fun c => if c = 304 then [105, 775] else [lowerLatin1Unit c])).flatten

/-- Modelled from the host environment: `String.prototype.toLocaleLowerCase`
under the Turkish locale maps U+0130 (`İ`) to the plain `i`. -/
def localeLowerTr (s : Str) : Str :=
  s.map (fun c => if c = 304 then 105 else lowerLatin1Unit c)

/-- Modelled from the spec: the German-locale collation (`Intl.Collator` is a
host service, not part of src).  The primary level folds the umlauts ä/ö/ü to
their base letters; primary ties are broken by code-unit order, so distinct
strings never compare equal. -/
def foldDeUnit (c : Nat) : Nat :=
  if c = 228 then 97 else if c = 246 then 111 else if c = 252 then 117 else c

/-- Modelled from the spec: three-way German collation comparison. -/
def deCollCmp (x y : Str) : Int :=
  lexCmp (fun u v => strCmp3 (u.map foldDeUnit) (v.map foldDeUnit)) strCmp3 x y

/-- One element of the `tmpMap` built by `buildStringLocaleMappedIntColumn`:
the original row index, the normalized cell data and the ASCII-only
classification of the raw cell value. -/
structure Entry where
  index : Nat
  data : Str
  isAscii : Bool
deriving DecidableEq

/-- Default entry used with `List.getD` when reading classified entries. -/
def dfltEntry : Entry := { index := 0, data := [], isAscii := false }

/-- Embeds the `tmpMap` construction of part_001's
`buildStringLocaleMappedIntColumn` (lines 122–129): data is
`elem.toLowerCase()` when `caseInsensitive` and `elem` unchanged otherwise, and
`isAscii` is `onlyAsciiChars(elem)`.  The host's `toLowerCase` is the `lower`
parameter; `i` is the running map index of `colData.map`. -/
def classifyP1 (ci : Bool) (lower : Str → Str) (i : Nat) : List Str → List Entry
  | [] => []
  | elem :: rest =>
    { index := i, data := if ci then lower elem else elem, isAscii := onlyAscii elem }
      :: classifyP1 ci lower (i + 1) rest

/-- Embeds the `tmpMap` construction of DT_localesort.js (lines 116–123): when
`caseInsensitive`, an ASCII-only value is lowered with `toLowerCase` (`olower`)
and any other value with `toLocaleLowerCase` (`llower`). -/
def classifyJs (ci : Bool) (olower llower : Str → Str) (i : Nat) : List Str → List Entry
  | [] => []
  | elem :: rest =>
    { index := i,
      data := if ci then (if onlyAscii elem then olower elem else llower elem) else elem,
      isAscii := onlyAscii elem }
      :: classifyJs ci olower llower (i + 1) rest

/-- Modelled from the spec (section 3, NormalizedValue): the value after
optional case folding — ordinal fold when ASCII-only, locale fold otherwise,
unchanged when case-insensitive mode is off. -/
def specNormalize (ci : Bool) (olower llower : Str → Str) (v : Str) : Str :=
  if ci then (if onlyAscii v then olower v else llower v) else v

/-- Modelled from the spec (section 4.3 step 1): the ClassifiedEntry list. -/
def specClassify (ci : Bool) (olower llower : Str → Str) (i : Nat) : List Str → List Entry
  | [] => []
  | v :: rest =>
    { index := i, data := specNormalize ci olower llower v, isAscii := onlyAscii v }
      :: specClassify ci olower llower (i + 1) rest

/-- An `Intl.Collator`-style comparison object; `compare` may return undefined
(`none`), as the part_001 fallback object does. -/
structure Collator where
  compare : Str → Str → Option Int

/-- Embeds the `coll` construction of part_001 (lines 131–134):
`new Intl.Collator(locale)` when the Intl services are available, otherwise the
literal fallback object whose compare function evaluates `x.localeCompare(y)`
but has no return statement, hence returns undefined. -/
def collOf (intlAvailable : Bool) (intlCollator : String → Str → Str → Int)
    (localeCompare : Str → Str → Int) (locale : String) : Collator :=
  if intlAvailable then { compare := fun x y => some (intlCollator locale x y) }
  else { compare := fun x y => (fun _r => none) (localeCompare x y) }

/-- Host-environment services consumed by the plugin, external to src. -/
structure Host where
  lower : Str → Str
  localeLower : Str → Str
  localeCompare : Str → Str → Int
  intlAvailable : Bool
  intlCollator : String → Str → Str → Int
  ambientLanguage : String

/-- Embeds the sort comparator of part_001's `buildStringLocaleMappedIntColumn`
(lines 138–145): three-way ordinal comparison when both entries are
ASCII-classified, `coll.compare` (which may return undefined) otherwise. -/
def mixedCompare (c : Collator) (x y : Entry) : Option Int :=
  if x.isAscii && y.isAscii then
    some (if strLt x.data y.data then -1 else if strLt y.data x.data then 1 else 0)
  else c.compare x.data y.data

/-- ECMAScript SortCompare: a comparator result that is not a number (undefined
becomes NaN after ToNumber) is treated as +0 by `Array.prototype.sort`. -/
def sortNum (r : Option Int) : Int := r.getD 0

/-- The effective integer comparator `Array.prototype.sort` orders by in the
part_001 revision: the mixed comparator under ECMAScript SortCompare. -/
def sortCompare (c : Collator) (x y : Entry) : Int := sortNum (mixedCompare c x y)

/-- Embeds the sort comparator of DT_localesort.js (lines 128–132): for two
ASCII-classified entries `x.data > y.data ? 1 : -1` (never 0), otherwise
`x.data.localeCompare(y.data)`. -/
def mixedCompareJs (localeCompare : Str → Str → Int) (x y : Entry) : Int :=
  if x.isAscii && y.isAscii then (if strLt y.data x.data then 1 else -1)
  else localeCompare x.data y.data

/-- Stable insertion of `x` into a list already sorted by `le`: `x` goes in
front of the first element it compares no-greater than. -/
def orderedIns (le : Entry → Entry → Bool) (x : Entry) : List Entry → List Entry
  | [] => [x]
  | y :: ys => if le x y then x :: y :: ys else y :: orderedIns le x ys

/-- `Array.prototype.sort` modelled as a stable comparison sort (ES2019 and
later require the sort to be stable; with a consistent comparator every stable
comparison sort produces the same list).  `le x y` renders
`comparator(x,y) <= 0`. -/
def stableSort (le : Entry → Entry → Bool) : List Entry → List Entry
  | [] => []
  | x :: xs => orderedIns le x (stableSort le xs)

/-- Embeds the rank-assignment loop of `buildStringLocaleMappedIntColumn`
(part_001 lines 153–162, js lines 139–148): one pass over the tail of the
sorted `tmpMap` producing, in loop order, the writes
`colToOrderPos[tmpMap[i].index] = rank`.  `prevData` is `tmpMap[i-1].data`,
`idxForSameContent` the current tie rank and `i` the sorted position. -/
def rankPairs (prevData : Str) (idxForSameContent i : Nat) : List Entry → List (Nat × Nat)
  | [] => []
  | e :: rest =>
    if e.data = prevData then
      (e.index, idxForSameContent) :: rankPairs e.data idxForSameContent (i + 1) rest
    else
      (e.index, i) :: rankPairs e.data i (i + 1) rest

/-- The full write sequence of the rank loop: the factored-out first write
(`colToOrderPos[tmpMap[0].index] = 0`) followed by the loop writes.  Empty for
an empty sorted list, where the source instead crashes reading `tmpMap[0]`. -/
def buildPairs : List Entry → List (Nat × Nat)
  | [] => []
  | e :: rest => (e.index, 0) :: rankPairs e.data 0 1 rest

/-- Performs the array writes `colToOrderPos[idx] = rank` on a JS array
modelled as a list of optional entries (`new Array(n)` has `n` holes). -/
def scatterPairs (a : List (Option Nat)) (ps : List (Nat × Nat)) : List (Option Nat) :=
  ps.foldl (fun acc p => acc.set p.1 (some p.2)) a

/-- A column's cached RankArray; JS arrays may contain holes, so entries are
optional. -/
abbrev RankArr := List (Option Nat)

/-- The per-table `settings.stringLocaleMapped` container of the part_001
revision.  The cache is a JS array indexed by column index; absent entries
(holes or positions beyond the length) read as `none`. -/
structure SLM where
  caseInsensitive : Bool
  locale : String
  cache : List (Option RankArr)
deriving DecidableEq

/-- Reads `cache[i]` of a JS array modelled as a list with holes. -/
def cacheRead (cache : List (Option RankArr)) (i : Nat) : Option RankArr :=
  cache.getD i none

/-- Writes `cache[i] = v` on a JS array, extending it with holes when `i` lies
beyond the current length. -/
def cacheWrite (cache : List (Option RankArr)) (i : Nat) (v : RankArr) : List (Option RankArr) :=
  (cache ++ List.replicate (i + 1 - cache.length) none).set i (some v)

/-- The `stringLocaleMapped` block of the table initialisation options
(`settings.oInit.stringLocaleMapped`); each option may be individually absent,
and the whole block may be absent (`none` at the use sites). -/
structure InitOptions where
  caseInsensitive : Option Bool
  locale : Option String
deriving DecidableEq

/-- Modelled from the host environment: `navigator.language` truncated at the
first `-`, as in `(navigator.language || navigator.browserLanguage).split('-')[0]`. -/
def languageHead (s : String) : String := String.mk (s.data.takeWhile (fun c => c ≠ '-'))

/-- Embeds `init` of part_001 (lines 78–92): `caseInsensitive` is
`haveOptions && myOptions.caseInsensitive === true`; the locale is the
configured string when present and otherwise the ambient browser language up
to the first `-`; the cache starts empty. -/
def initP1 (h : Host) (opts : Option InitOptions) : SLM :=
  { caseInsensitive :=
      match opts with
      | none => false
      | some o => o.caseInsensitive == some true
    locale :=
      match opts with
      | some o =>
        match o.locale with
        | some l => l
        | none => languageHead h.ambientLanguage
      | none => languageHead h.ambientLanguage
    cache := [] }

/-- The js revision's `settings.stringLocaleMapped` container (no locale). -/
structure SLMJs where
  caseInsensitive : Bool
  cache : List (Option RankArr)
deriving DecidableEq

/-- Embeds `init` of DT_localesort.js (lines 78–86): `caseInsensitive` is
`myOptions && myOptions.caseInsensitive === false ? false : true`. -/
def initJs (opts : Option InitOptions) : SLMJs :=
  { caseInsensitive :=
      match opts with
      | none => true
      | some o => if o.caseInsensitive == some false then false else true
    cache := [] }

/-- Embeds `invalidateStringLocaleMappedCache` (js revision:
`invalidateStringLocaleSortCache`) for one table context:
`context.stringLocaleMapped.cache = []`. -/
def invalidateStringLocaleMappedCache (s : SLM) : SLM :=
  { s with cache := [] }

/-- The classified `tmpMap` of part_001's build for a context and column. -/
def tmpMapOf (h : Host) (s : SLM) (colData : List Str) : List Entry :=
  classifyP1 s.caseInsensitive h.lower 0 colData

/-- The collator part_001's build constructs for the context locale. -/
def collCtx (h : Host) (s : SLM) : Collator :=
  collOf h.intlAvailable h.intlCollator h.localeCompare s.locale

/-- The sorted `tmpMap` of part_001's build. -/
def sortedEntries (h : Host) (s : SLM) (colData : List Str) : List Entry :=
  stableSort (fun x y => decide (sortCompare (collCtx h s) x y ≤ 0)) (tmpMapOf h s colData)

/-- Embeds `buildStringLocaleMappedIntColumn` of part_001 (lines 111–165):
classify, sort, store `cache[col] = new Array(n)`, then walk the sorted list
assigning ranks and scatter them by original index into the cached array,
returning it.  Reading `tmpMap[0]` of an empty sorted list throws (the error
result); at that point the cache entry has already been replaced by the empty
array. -/
def buildStringLocaleMappedIntColumn (h : Host) (context : SLM) (col : Nat)
    (colData : List Str) : Except Unit RankArr × SLM :=
  match sortedEntries h context colData with
  | [] => (Except.error (), { context with cache := cacheWrite context.cache col [] })
  | e :: rest =>
    let arr := scatterPairs (List.replicate (e :: rest).length none) (buildPairs (e :: rest))
    (Except.ok arr, { context with cache := cacheWrite context.cache col arr })

/-- Embeds `getSortColumnData` of part_001 (lines 94–103): initialise the
settings on first use, return the cached column array when present, and
otherwise build (which also stores the array).  `colData` is the current
snapshot delivered by the column-data accessor. -/
def getSortColumnData (h : Host) (opts : Option InitOptions) (settings : Option SLM)
    (colIdx : Nat) (colData : List Str) : Except Unit RankArr × SLM :=
  let s := match settings with
    | none => initP1 h opts
    | some s0 => s0
  match cacheRead s.cache colIdx with
  | none => buildStringLocaleMappedIntColumn h s colIdx colData
  | some arr => (Except.ok arr, s)

/-- Host instantiation whose collator is the plain ordinal comparison, used to
evaluate the embedding on concrete columns. -/
def ordHost : Host :=
  { lower := lowerLatin1
    localeLower := lowerLatin1
    localeCompare := strCmp3
    intlAvailable := true
    intlCollator := fun _l => strCmp3
    ambientLanguage := "en" }

/-- Host instantiation with the modelled German collator. -/
def deHost : Host :=
  { lower := lowerLatin1
    localeLower := lowerLatin1
    localeCompare := strCmp3
    intlAvailable := true
    intlCollator := fun _l => deCollCmp
    ambientLanguage := "de-DE" }

/-- The spec's German scenario column: `["Zeder","Arzt","Ärzte","Ast","Baum"]`
as code-unit lists. -/
def germanColumn : List Str :=
  [[90, 101, 100, 101, 114],
   [65, 114, 122, 116],
   [196, 114, 122, 116, 101],
   [65, 115, 116],
   [66, 97, 117, 109]]

/-! Ordinal comparison laws. -/

theorem strLt_nil_right : ∀ x : Str, strLt x [] = false
  | [] => rfl
  | _ :: _ => rfl

theorem strLt_cons_iff (a b : Nat) (xs ys : Str) :
    strLt (a :: xs) (b :: ys) = true ↔ a < b ∨ (a = b ∧ strLt xs ys = true) := by
  simp only [strLt]
  rcases Nat.lt_trichotomy a b with h | h | h
  · simp [h]
  · subst h
    simp
  · have h1 : ¬ a < b := by omega
    have h2 : a ≠ b := by omega
    simp [h, h1, h2]

theorem strLt_asymm : ∀ x y : Str, strLt x y = true → strLt y x = false
  | _x, [] => by intro h; rw [strLt_nil_right] at h; exact absurd h (by simp)
  | [], _b :: _ys => by intro _; rw [strLt_nil_right]
  | a :: xs, b :: ys => by
    intro h
    cases hyx : strLt (b :: ys) (a :: xs) with
    | false => rfl
    | true =>
      exfalso
      rw [strLt_cons_iff] at h hyx
      rcases h with h | ⟨h, h'⟩ <;> rcases hyx with hyx | ⟨hyx, hyx'⟩
      · omega
      · omega
      · omega
      · have := strLt_asymm xs ys h'
        rw [this] at hyx'
        exact absurd hyx' (by simp)

theorem strLt_trans : ∀ x y z : Str, strLt x y = true → strLt y z = true → strLt x z = true
  | _x, [], _z => by intro h _; rw [strLt_nil_right] at h; exact absurd h (by simp)
  | _x, _b :: _ys, [] => by intro _ h; rw [strLt_nil_right] at h; exact absurd h (by simp)
  | [], _b :: _ys, _c :: _zs => by intro _ _; rfl
  | a :: xs, b :: ys, c :: zs => by
    intro h1 h2
    rw [strLt_cons_iff] at h1 h2 ⊢
    rcases h1 with h1 | ⟨h1, h1'⟩ <;> rcases h2 with h2 | ⟨h2, h2'⟩
    · exact Or.inl (by omega)
    · exact Or.inl (by omega)
    · exact Or.inl (by omega)
    · exact Or.inr ⟨by omega, strLt_trans xs ys zs h1' h2'⟩

theorem strLt_connex : ∀ x y : Str, strLt x y = false → strLt y x = false → x = y
  | [], [] => by intro _ _; rfl
  | [], _b :: _ys => by intro h _; exact absurd h (by simp [strLt])
  | _a :: _xs, [] => by intro _ h; exact absurd h (by simp [strLt])
  | a :: xs, b :: ys => by
    intro h1 h2
    have c1 : ¬ (a < b ∨ (a = b ∧ strLt xs ys = true)) := by
      rw [← strLt_cons_iff]
      simp [h1]
    have c2 : ¬ (b < a ∨ (b = a ∧ strLt ys xs = true)) := by
      rw [← strLt_cons_iff]
      simp [h2]
    push_neg at c1 c2
    have hab : a = b := by omega
    subst hab
    have e1 : strLt xs ys = false := by
      cases hxy : strLt xs ys with
      | false => rfl
      | true => exact absurd hxy (c1.2 rfl)
    have e2 : strLt ys xs = false := by
      cases hyx : strLt ys xs with
      | false => rfl
      | true => exact absurd hyx (c2.2 rfl)
    rw [strLt_connex xs ys e1 e2]

theorem strCmp3_lt_iff (x y : Str) : strCmp3 x y < 0 ↔ strLt x y = true := by
  unfold strCmp3
  cases hxy : strLt x y <;> cases hyx : strLt y x <;> norm_num

theorem strCmp3_pos_iff (x y : Str) :
    strCmp3 x y > 0 ↔ (strLt x y = false ∧ strLt y x = true) := by
  unfold strCmp3
  cases hxy : strLt x y <;> cases hyx : strLt y x <;> norm_num

theorem strCmp3_le_iff (x y : Str) : strCmp3 x y ≤ 0 ↔ strLt y x = false := by
  unfold strCmp3
  cases hxy : strLt x y with
  | true =>
    have := strLt_asymm x y hxy
    simp only [this]
    norm_num
  | false =>
    cases hyx : strLt y x <;> norm_num

theorem strCmp3_eq_zero_iff (x y : Str) :
    strCmp3 x y = 0 ↔ (strLt x y = false ∧ strLt y x = false) := by
  unfold strCmp3
  cases hxy : strLt x y <;> cases hyx : strLt y x <;> norm_num

theorem strCmp3_laws : CmpLaws strCmp3 := by
  refine ⟨⟨?_, ?_⟩, ?_⟩
  · intro x y
    rw [strCmp3_lt_iff, strCmp3_pos_iff]
    constructor
    · intro h
      exact ⟨strLt_asymm x y h, h⟩
    · intro h
      exact h.2
  · intro x y z hxy hyz
    rw [strCmp3_le_iff] at hxy hyz ⊢
    cases hzx : strLt z x with
    | false => rfl
    | true =>
      exfalso
      cases hxy2 : strLt x y with
      | true =>
        have := strLt_trans z x y hzx hxy2
        rw [this] at hyz
        exact absurd hyz (by simp)
      | false =>
        have := strLt_connex x y hxy2 hxy
        subst this
        rw [hzx] at hyz
        exact absurd hyz (by simp)
  · intro x y h
    rw [strCmp3_eq_zero_iff] at h
    exact strLt_connex x y h.1 h.2

namespace CmpLawsW

variable {cmp : Str → Str → Int} (L : CmpLawsW cmp)

theorem cmp_refl (L : CmpLawsW cmp) (x : Str) : cmp x x = 0 := by
  have h := L.flip x x
  omega

theorem zero_symm (L : CmpLawsW cmp) {x y : Str} (h : cmp x y = 0) : cmp y x = 0 := by
  have h1 := L.flip x y
  have h2 := L.flip y x
  omega

theorem le_or (L : CmpLawsW cmp) (x y : Str) : cmp x y ≤ 0 ∨ cmp y x ≤ 0 := by
  have h := L.flip y x
  omega

theorem lt_of_lt_of_le (L : CmpLawsW cmp) {x y z : Str}
    (h1 : cmp x y < 0) (h2 : cmp y z ≤ 0) : cmp x z < 0 := by
  have hle := L.cmp_trans x y z (le_of_lt h1) h2
  rcases lt_or_eq_of_le hle with h | h
  · exact h
  · exfalso
    have hzx : cmp z x = 0 := L.zero_symm h
    have hyx : cmp y x > 0 := (L.flip x y).mp h1
    have : cmp y x ≤ 0 := L.cmp_trans y z x h2 (le_of_eq hzx)
    omega

theorem lt_of_le_of_lt (L : CmpLawsW cmp) {x y z : Str}
    (h1 : cmp x y ≤ 0) (h2 : cmp y z < 0) : cmp x z < 0 := by
  have hle := L.cmp_trans x y z h1 (le_of_lt h2)
  rcases lt_or_eq_of_le hle with h | h
  · exact h
  · exfalso
    have hzx : cmp z x = 0 := L.zero_symm h
    have hzy : cmp y z > 0 := by
      have : cmp z y ≤ 0 := L.cmp_trans z x y (le_of_eq hzx) h1
      have hf := L.flip z y
      have hf2 := L.flip y z
      omega
    omega

theorem zero_trans (L : CmpLawsW cmp) {x y z : Str}
    (h1 : cmp x y = 0) (h2 : cmp y z = 0) : cmp x z = 0 := by
  have hle : cmp x z ≤ 0 := L.cmp_trans x y z (le_of_eq h1) (le_of_eq h2)
  have hle2 : cmp z x ≤ 0 :=
    L.cmp_trans z y x (le_of_eq (L.zero_symm h2)) (le_of_eq (L.zero_symm h1))
  have hf := L.flip x z
  omega

/-- Pullback of the weak laws along a key function. -/
theorem comap (L : CmpLawsW cmp) (f : Str → Str) :
    CmpLawsW (fun x y => cmp (f x) (f y)) := by
  refine ⟨fun x y => L.flip (f x) (f y), fun x y z => L.cmp_trans (f x) (f y) (f z)⟩

end CmpLawsW

namespace CmpLaws

variable {cmp : Str → Str → Int}

theorem eq_of_le_le (L : CmpLaws cmp) {x y : Str}
    (h1 : cmp x y ≤ 0) (h2 : cmp y x ≤ 0) : x = y := by
  have hf := L.flip x y
  exact L.eq_of x y (by omega)

end CmpLaws

/-- The lexicographic combination of a weak comparator with a full comparator
satisfies the full laws. -/
theorem lexCmp_laws {c1 c2 : Str → Str → Int} (L1 : CmpLawsW c1) (L2 : CmpLaws c2) :
    CmpLaws (lexCmp c1 c2) := by
  refine ⟨⟨?_, ?_⟩, ?_⟩
  · intro x y
    unfold lexCmp
    by_cases h : c1 x y = 0
    · rw [if_pos h, if_pos (L1.zero_symm h)]
      exact L2.flip x y
    · have h2 : ¬ c1 y x = 0 := fun hc => h (L1.zero_symm hc)
      rw [if_neg h, if_neg h2]
      exact L1.flip x y
  · intro x y z hxy hyz
    unfold lexCmp at *
    by_cases hxy1 : c1 x y = 0
    · by_cases hyz1 : c1 y z = 0
      · rw [if_pos (L1.zero_trans hxy1 hyz1)]
        rw [if_pos hxy1] at hxy
        rw [if_pos hyz1] at hyz
        exact L2.cmp_trans x y z hxy hyz
      · rw [if_neg hyz1] at hyz
        have hlt : c1 y z < 0 := lt_of_le_of_ne hyz hyz1
        have : c1 x z < 0 := L1.lt_of_le_of_lt (le_of_eq hxy1) hlt
        rw [if_neg (by omega)]
        exact le_of_lt this
    · rw [if_neg hxy1] at hxy
      have hlt : c1 x y < 0 := lt_of_le_of_ne hxy hxy1
      by_cases hyz1 : c1 y z = 0
      · have : c1 x z < 0 := L1.lt_of_lt_of_le hlt (le_of_eq hyz1)
        rw [if_neg (by omega)]
        exact le_of_lt this
      · rw [if_neg hyz1] at hyz
        have : c1 x z < 0 := L1.lt_of_lt_of_le hlt hyz
        rw [if_neg (by omega)]
        exact le_of_lt this
  · intro x y h
    unfold lexCmp at h
    by_cases h1 : c1 x y = 0
    · rw [if_pos h1] at h
      exact L2.eq_of x y h
    · rw [if_neg h1] at h
      exact absurd h h1

/-- The modelled German collation comparison satisfies the full laws. -/
theorem deCollCmp_laws : CmpLaws deCollCmp :=
  lexCmp_laws (strCmp3_laws.toCmpLawsW.comap (fun u => u.map foldDeUnit)) strCmp3_laws

/-! Lemmas about the stable sort model. -/

theorem orderedIns_perm (le : Entry → Entry → Bool) (x : Entry) :
    ∀ l : List Entry, (orderedIns le x l).Perm (x :: l)
  | [] => List.Perm.refl _
  | y :: ys => by
    unfold orderedIns
    by_cases h : le x y = true
    · rw [if_pos h]
    · rw [if_neg h]
      exact ((orderedIns_perm le x ys).cons y).trans (List.Perm.swap x y ys)

theorem stableSort_perm (le : Entry → Entry → Bool) :
    ∀ l : List Entry, (stableSort le l).Perm l
  | [] => List.Perm.refl _
  | x :: xs =>
    (orderedIns_perm le x (stableSort le xs)).trans ((stableSort_perm le xs).cons x)

theorem pairwise_orderedIns (le : Entry → Entry → Bool) (x : Entry) (l : List Entry)
    (hl : l.Pairwise (fun a b => le a b = true))
    (htot : ∀ y ∈ l, le x y = true ∨ le y x = true)
    (htr : ∀ a ∈ x :: l, ∀ b ∈ x :: l, ∀ c ∈ x :: l,
      le a b = true → le b c = true → le a c = true) :
    (orderedIns le x l).Pairwise (fun a b => le a b = true) := by
  induction l with
  | nil => simp [orderedIns]
  | cons y ys ih =>
    rw [List.pairwise_cons] at hl
    unfold orderedIns
    by_cases h : le x y = true
    · rw [if_pos h]
      refine List.Pairwise.cons ?_ (List.Pairwise.cons hl.1 hl.2)
      intro z hz
      rcases List.mem_cons.mp hz with rfl | hz'
      · exact h
      · exact htr x (by simp) y (by simp) z (by simp [hz']) h (hl.1 z hz')
    · rw [if_neg h]
      have hyx : le y x = true := by
        rcases htot y (by simp) with h' | h'
        · exact absurd h' h
        · exact h'
      refine List.Pairwise.cons ?_ ?_
      · intro z hz
        have hz2 : z ∈ x :: ys := (orderedIns_perm le x ys).mem_iff.mp hz
        rcases List.mem_cons.mp hz2 with rfl | hz'
        · exact hyx
        · exact hl.1 z hz'
      · have sub : ∀ w, w ∈ x :: ys → w ∈ x :: y :: ys := by
          intro w hw
          rcases List.mem_cons.mp hw with rfl | hw'
          · simp
          · simp [hw']
        exact ih hl.2 (fun z hz => htot z (by simp [hz]))
          (fun a ha b hb c hc => htr a (sub a ha) b (sub b hb) c (sub c hc))

theorem pairwise_stableSort (le : Entry → Entry → Bool) :
    ∀ l : List Entry,
      (∀ a ∈ l, ∀ b ∈ l, le a b = true ∨ le b a = true) →
      (∀ a ∈ l, ∀ b ∈ l, ∀ c ∈ l, le a b = true → le b c = true → le a c = true) →
      (stableSort le l).Pairwise (fun a b => le a b = true)
  | [] => by
    intro _ _
    simp [stableSort]
  | x :: xs => by
    intro htot htr
    unfold stableSort
    have hsub : ∀ w, w ∈ x :: stableSort le xs → w ∈ x :: xs := by
      intro w hw
      rcases List.mem_cons.mp hw with rfl | hw'
      · simp
      · have := (stableSort_perm le xs).mem_iff.mp hw'
        simp [this]
    refine pairwise_orderedIns le x (stableSort le xs) ?_ ?_ ?_
    · exact pairwise_stableSort le xs
        (fun a ha b hb => htot a (by simp [ha]) b (by simp [hb]))
        (fun a ha b hb c hc => htr a (by simp [ha]) b (by simp [hb]) c (by simp [hc]))
    · intro y hy
      exact htot x (by simp) y (hsub y (by simp [hy]))
    · intro a ha b hb c hc
      exact htr a (hsub a ha) b (hsub b hb) c (hsub c hc)

/-! Lemmas about the scatter writes. -/

theorem scatterPairs_cons (a : List (Option Nat)) (p : Nat × Nat) (ps : List (Nat × Nat)) :
    scatterPairs a (p :: ps) = scatterPairs (a.set p.1 (some p.2)) ps := rfl

theorem scatterPairs_length :
    ∀ (ps : List (Nat × Nat)) (a : List (Option Nat)),
      (scatterPairs a ps).length = a.length
  | [], _a => rfl
  | p :: ps, a => by
    rw [scatterPairs_cons, scatterPairs_length ps, List.length_set]

theorem getD_set_self {l : List (Option Nat)} {i : Nat} {v : Option Nat} (h : i < l.length) :
    (l.set i v).getD i none = v := by
  rw [List.getD_eq_getElem?_getD, List.getElem?_set_self h]
  rfl

theorem getD_set_ne {l : List (Option Nat)} {i j : Nat} {v : Option Nat} (h : i ≠ j) :
    (l.set i v).getD j none = l.getD j none := by
  rw [List.getD_eq_getElem?_getD, List.getElem?_set_ne h, ← List.getD_eq_getElem?_getD]

theorem scatterPairs_getD_not_mem (i : Nat) :
    ∀ (ps : List (Nat × Nat)) (a : List (Option Nat)), i ∉ ps.map Prod.fst →
      (scatterPairs a ps).getD i none = a.getD i none
  | [], _a => by
    intro _
    rfl
  | p :: ps, a => by
    intro hmem
    simp only [List.map_cons, List.mem_cons, not_or] at hmem
    rw [scatterPairs_cons, scatterPairs_getD_not_mem i ps _ hmem.2,
      getD_set_ne (fun hc => hmem.1 hc.symm)]

theorem scatterPairs_getD_mem :
    ∀ (ps : List (Nat × Nat)) (a : List (Option Nat)) (i r : Nat),
      (ps.map Prod.fst).Nodup → (i, r) ∈ ps → i < a.length →
      (scatterPairs a ps).getD i none = some r
  | [], _a, _i, _r => by
    intro _ hmem _
    exact absurd hmem (by simp)
  | p :: ps, a, i, r => by
    intro hnd hmem hlen
    simp only [List.map_cons, List.nodup_cons] at hnd
    rcases List.mem_cons.mp hmem with rfl | hmem'
    · have hni : i ∉ ps.map Prod.fst := hnd.1
      rw [scatterPairs_cons, scatterPairs_getD_not_mem i ps _ hni, getD_set_self hlen]
    · rw [scatterPairs_cons]
      exact scatterPairs_getD_mem ps _ i r hnd.2 hmem' (by rw [List.length_set]; exact hlen)

/-! Proof-side view of the rank walk: the rank sequence along the sorted data. -/

/-- The ranks the loop assigns along the tail of the sorted data values,
mirroring `rankPairs` without the original indices. -/
def walkRanks (prevData : Str) (idxForSameContent i : Nat) : List Str → List Nat
  | [] => []
  | d :: rest =>
    if d = prevData then idxForSameContent :: walkRanks d idxForSameContent (i + 1) rest
    else i :: walkRanks d i (i + 1) rest

/-- The rank sequence over the whole sorted data list. -/
def sortedRanks : List Str → List Nat
  | [] => []
  | d :: rest => 0 :: walkRanks d 0 1 rest

theorem walkRanks_cons (p d : Str) (i k : Nat) (rest : List Str) :
    walkRanks p i k (d :: rest) =
      (if d = p then i else k) :: walkRanks d (if d = p then i else k) (k + 1) rest := by
  by_cases h : d = p
  · simp [walkRanks, h]
  · simp [walkRanks, h]

theorem walkRanks_length : ∀ (l : List Str) (p : Str) (i k : Nat),
    (walkRanks p i k l).length = l.length
  | [], _p, _i, _k => rfl
  | d :: rest, p, i, k => by
    rw [walkRanks_cons]
    simp only [List.length_cons]
    rw [walkRanks_length rest]

theorem sortedRanks_length : ∀ ds : List Str, (sortedRanks ds).length = ds.length
  | [] => rfl
  | d :: rest => by
    simp only [sortedRanks, List.length_cons]
    rw [walkRanks_length rest]

theorem rankPairs_map_fst : ∀ (l : List Entry) (p : Str) (i k : Nat),
    (rankPairs p i k l).map Prod.fst = l.map Entry.index
  | [], _p, _i, _k => rfl
  | e :: rest, p, i, k => by
    unfold rankPairs
    by_cases h : e.data = p
    · rw [if_pos h]
      simp only [List.map_cons]
      rw [rankPairs_map_fst rest]
    · rw [if_neg h]
      simp only [List.map_cons]
      rw [rankPairs_map_fst rest]

theorem rankPairs_map_snd : ∀ (l : List Entry) (p : Str) (i k : Nat),
    (rankPairs p i k l).map Prod.snd = walkRanks p i k (l.map Entry.data)
  | [], _p, _i, _k => rfl
  | e :: rest, p, i, k => by
    unfold rankPairs
    rw [List.map_cons, walkRanks_cons]
    by_cases h : e.data = p
    · rw [if_pos h, if_pos h]
      simp only [List.map_cons]
      rw [rankPairs_map_snd rest]
    · rw [if_neg h, if_neg h]
      simp only [List.map_cons]
      rw [rankPairs_map_snd rest]

theorem buildPairs_map_fst : ∀ l : List Entry, (buildPairs l).map Prod.fst = l.map Entry.index
  | [] => rfl
  | e :: rest => by
    simp only [buildPairs, List.map_cons]
    rw [rankPairs_map_fst rest]

theorem buildPairs_map_snd : ∀ l : List Entry,
    (buildPairs l).map Prod.snd = sortedRanks (l.map Entry.data)
  | [] => rfl
  | e :: rest => by
    simp only [buildPairs, sortedRanks, List.map_cons]
    rw [rankPairs_map_snd rest]

theorem walkRanks_getD : ∀ (l : List Str) (p : Str) (i k m : Nat), m < l.length →
    (walkRanks p i k l).getD m 0 =
      if l.getD m [] = (p :: l).getD m [] then (i :: walkRanks p i k l).getD m 0 else k + m
  | [], _p, _i, _k, m => by
    intro h
    exact absurd h (by simp)
  | d :: rest, p, i, k, 0 => by
    intro _
    rw [walkRanks_cons]
    by_cases h : d = p <;> simp [h]
  | d :: rest, p, i, k, m + 1 => by
    intro hm
    have hm' : m < rest.length := by simpa using hm
    rw [walkRanks_cons]
    simp only [List.getD_cons_succ]
    rw [walkRanks_getD rest d _ (k + 1) m hm']
    have e1 : k + 1 + m = k + (m + 1) := by omega
    rw [e1]

theorem sortedRanks_getD_zero (d : Str) (rest : List Str) :
    (sortedRanks (d :: rest)).getD 0 0 = 0 := rfl

theorem sortedRanks_step (ds : List Str) (m : Nat) (hm : m + 1 < ds.length) :
    (sortedRanks ds).getD (m + 1) 0 =
      if ds.getD (m + 1) [] = ds.getD m [] then (sortedRanks ds).getD m 0 else m + 1 := by
  match ds with
  | [] => exact absurd hm (by simp)
  | d :: rest =>
    have hm' : m < rest.length := by simpa using hm
    simp only [sortedRanks, List.getD_cons_succ]
    rw [walkRanks_getD rest d 0 1 m hm']
    have e1 : (1 : Nat) + m = m + 1 := by omega
    rw [e1]

theorem sortedRanks_le_self (ds : List Str) : ∀ m, m < ds.length →
    (sortedRanks ds).getD m 0 ≤ m := by
  intro m
  induction m with
  | zero =>
    intro h
    cases ds with
    | nil => simp at h
    | cons d rest => simp [sortedRanks]
  | succ m ih =>
    intro h
    rw [sortedRanks_step ds m h]
    by_cases hc : ds.getD (m + 1) [] = ds.getD m []
    · rw [if_pos hc]
      exact le_trans (ih (by omega)) (by omega)
    · rw [if_neg hc]

theorem sortedRanks_mono (ds : List Str) : ∀ b, b < ds.length → ∀ a, a ≤ b →
    (sortedRanks ds).getD a 0 ≤ (sortedRanks ds).getD b 0 := by
  intro b
  induction b with
  | zero =>
    intro _ a ha
    have : a = 0 := by omega
    subst this
    exact le_refl _
  | succ b ih =>
    intro hb a ha
    rcases Nat.eq_or_lt_of_le ha with rfl | hlt
    · exact le_refl _
    · have ha' : a ≤ b := by omega
      have h1 := ih (by omega) a ha'
      rw [sortedRanks_step ds b hb]
      by_cases hc : ds.getD (b + 1) [] = ds.getD b []
      · rw [if_pos hc]
        exact h1
      · rw [if_neg hc]
        have := sortedRanks_le_self ds b (by omega)
        omega

theorem sortedRanks_strict (ds : List Str) : ∀ b, b < ds.length → ∀ a, a < b →
    ds.getD a [] ≠ ds.getD b [] →
    (sortedRanks ds).getD a 0 < (sortedRanks ds).getD b 0 := by
  intro b
  induction b with
  | zero =>
    intro _ a ha
    exact absurd ha (by omega)
  | succ b ih =>
    intro hb a ha hne
    rw [sortedRanks_step ds b hb]
    by_cases hc : ds.getD (b + 1) [] = ds.getD b []
    · rw [if_pos hc]
      have hab : a < b := by
        rcases Nat.lt_succ_iff_lt_or_eq.mp ha with h | h
        · exact h
        · exfalso
          subst h
          exact hne hc.symm
      exact ih (by omega) a hab (fun h => hne (h.trans hc.symm))
    · rw [if_neg hc]
      have := sortedRanks_le_self ds a (by omega)
      omega

theorem sortedRanks_eq_of_deq (ds : List Str)
    (hcontig : ∀ p q r, p ≤ q → q ≤ r → r < ds.length → ds.getD p [] = ds.getD r [] →
      ds.getD q [] = ds.getD p []) :
    ∀ b, b < ds.length → ∀ a, a ≤ b → ds.getD a [] = ds.getD b [] →
      (sortedRanks ds).getD a 0 = (sortedRanks ds).getD b 0 := by
  intro b
  induction b with
  | zero =>
    intro _ a ha _
    have : a = 0 := by omega
    subst this
    rfl
  | succ b ih =>
    intro hb a ha hdeq
    rcases Nat.eq_or_lt_of_le ha with rfl | hlt
    · rfl
    · have ha' : a ≤ b := by omega
      have hdb : ds.getD b [] = ds.getD a [] := hcontig a b (b + 1) ha' (by omega) hb hdeq
      rw [sortedRanks_step ds b hb, if_pos (hdeq.symm.trans hdb.symm)]
      exact ih (by omega) a ha' hdb.symm

theorem sortedRanks_runStart (ds : List Str)
    (hcontig : ∀ p q r, p ≤ q → q ≤ r → r < ds.length → ds.getD p [] = ds.getD r [] →
      ds.getD q [] = ds.getD p []) :
    ∀ b, b < ds.length →
      ds.getD ((sortedRanks ds).getD b 0) [] = ds.getD b [] ∧
      ∀ m, m < (sortedRanks ds).getD b 0 → ds.getD m [] ≠ ds.getD b [] := by
  intro b
  induction b with
  | zero =>
    intro hb
    cases ds with
    | nil => simp at hb
    | cons d rest =>
      constructor
      · simp [sortedRanks]
      · intro m hm
        simp [sortedRanks] at hm
  | succ b ih =>
    intro hb
    rw [sortedRanks_step ds b hb]
    by_cases hc : ds.getD (b + 1) [] = ds.getD b []
    · rw [if_pos hc]
      obtain ⟨h1, h2⟩ := ih (by omega)
      constructor
      · rw [h1]
        exact hc.symm
      · intro m hm
        rw [hc]
        exact h2 m hm
    · rw [if_neg hc]
      constructor
      · rfl
      · intro m hm heq
        have hmb : m ≤ b := by omega
        have hqb := hcontig m b (b + 1) hmb (by omega) hb heq
        exact hc (hqb.trans heq).symm

theorem sortedRanks_iff (ds : List Str) (dcmp : Str → Str → Int) (L : CmpLaws dcmp)
    (hp : ∀ a b, a ≤ b → b < ds.length → dcmp (ds.getD a []) (ds.getD b []) ≤ 0) :
    ∀ a b, a < ds.length → b < ds.length →
      ((sortedRanks ds).getD a 0 ≤ (sortedRanks ds).getD b 0 ↔
        dcmp (ds.getD a []) (ds.getD b []) ≤ 0) ∧
      ((sortedRanks ds).getD a 0 = (sortedRanks ds).getD b 0 ↔
        dcmp (ds.getD a []) (ds.getD b []) = 0) := by
  have hcontig : ∀ p q r, p ≤ q → q ≤ r → r < ds.length → ds.getD p [] = ds.getD r [] →
      ds.getD q [] = ds.getD p [] := by
    intro p q r hpq hqr hr hpr
    have h1 : dcmp (ds.getD p []) (ds.getD q []) ≤ 0 := hp p q hpq (by omega)
    have h2 : dcmp (ds.getD q []) (ds.getD r []) ≤ 0 := hp q r hqr hr
    rw [← hpr] at h2
    exact L.eq_of_le_le h2 h1
  have hdeq_iff : ∀ a b, a < ds.length → b < ds.length →
      ((sortedRanks ds).getD a 0 = (sortedRanks ds).getD b 0 ↔
        ds.getD a [] = ds.getD b []) := by
    intro a b ha hb
    constructor
    · intro h
      by_contra hne
      rcases Nat.lt_trichotomy a b with hlt | heq | hlt
      · have := sortedRanks_strict ds b hb a hlt hne
        omega
      · exact hne (heq ▸ rfl)
      · have := sortedRanks_strict ds a ha b hlt (fun hh => hne hh.symm)
        omega
    · intro h
      rcases Nat.le_total a b with hle | hle
      · exact sortedRanks_eq_of_deq ds hcontig b hb a hle h
      · exact (sortedRanks_eq_of_deq ds hcontig a ha b hle h.symm).symm
  intro a b ha hb
  have hzero_iff : dcmp (ds.getD a []) (ds.getD b []) = 0 ↔ ds.getD a [] = ds.getD b [] := by
    constructor
    · exact L.eq_of _ _
    · intro h
      rw [h]
      exact L.toCmpLawsW.cmp_refl _
  constructor
  · rcases Nat.le_total a b with hle | hle
    · constructor
      · intro _
        exact hp a b hle hb
      · intro _
        exact sortedRanks_mono ds b hb a hle
    · constructor
      · intro h
        have h2 := sortedRanks_mono ds a ha b hle
        have heq := (hdeq_iff a b ha hb).mp (by omega)
        rw [hzero_iff.mpr heq]
      · intro h
        have h2 := hp b a hle ha
        have heq := L.eq_of_le_le h h2
        have := (hdeq_iff a b ha hb).mpr heq
        omega
  · rw [hdeq_iff a b ha hb]
    exact hzero_iff.symm

/-! List access helpers and classification lemmas. -/

theorem getD_eq_get {α : Type} (l : List α) (m : Nat) (d : α) (h : m < l.length) :
    l.getD m d = l.get ⟨m, h⟩ := by
  rw [List.getD_eq_getElem?_getD, List.getElem?_eq_getElem h]
  rfl

theorem getD_mem {α : Type} (l : List α) (m : Nat) (d : α) (h : m < l.length) :
    l.getD m d ∈ l := by
  rw [getD_eq_get l m d h]
  exact l.get_mem m h

theorem classifyP1_length : ∀ (l : List Str) (ci : Bool) (lower : Str → Str) (i : Nat),
    (classifyP1 ci lower i l).length = l.length
  | [], _ci, _lower, _i => rfl
  | _v :: rest, ci, lower, i => by
    simp only [classifyP1, List.length_cons]
    rw [classifyP1_length rest]

theorem classifyP1_getD : ∀ (l : List Str) (ci : Bool) (lower : Str → Str) (i m : Nat),
    m < l.length →
    (classifyP1 ci lower i l).getD m dfltEntry =
      { index := i + m,
        data := if ci then lower (l.getD m []) else l.getD m [],
        isAscii := onlyAscii (l.getD m []) }
  | [], _ci, _lower, _i, m => by
    intro h
    exact absurd h (by simp)
  | _v :: rest, ci, lower, i, 0 => by
    intro _
    simp [classifyP1]
  | _v :: rest, ci, lower, i, m + 1 => by
    intro hm
    have hm' : m < rest.length := by simpa using hm
    simp only [classifyP1, List.getD_cons_succ]
    rw [classifyP1_getD rest ci lower (i + 1) m hm']
    have e1 : i + 1 + m = i + (m + 1) := by omega
    rw [e1]

theorem classifyP1_index_mem : ∀ (l : List Str) (ci : Bool) (lower : Str → Str) (i j : Nat),
    j ∈ (classifyP1 ci lower i l).map Entry.index ↔ (i ≤ j ∧ j < i + l.length)
  | [], _ci, _lower, i, j => by
    simp [classifyP1]
  | _v :: rest, ci, lower, i, j => by
    simp only [classifyP1, List.map_cons, List.mem_cons, List.length_cons]
    rw [classifyP1_index_mem rest ci lower (i + 1) j]
    omega

theorem classifyP1_index_nodup : ∀ (l : List Str) (ci : Bool) (lower : Str → Str) (i : Nat),
    ((classifyP1 ci lower i l).map Entry.index).Nodup
  | [], _ci, _lower, _i => by simp [classifyP1]
  | _v :: rest, ci, lower, i => by
    simp only [classifyP1, List.map_cons]
    refine List.nodup_cons.mpr ⟨?_, classifyP1_index_nodup rest ci lower (i + 1)⟩
    intro hmem
    rw [classifyP1_index_mem] at hmem
    omega

theorem tmpMapOf_length (h : Host) (s : SLM) (colData : List Str) :
    (tmpMapOf h s colData).length = colData.length :=
  classifyP1_length colData s.caseInsensitive h.lower 0

theorem sortedEntries_perm (h : Host) (s : SLM) (colData : List Str) :
    (sortedEntries h s colData).Perm (tmpMapOf h s colData) :=
  stableSort_perm _ _

theorem sortedEntries_length (h : Host) (s : SLM) (colData : List Str) :
    (sortedEntries h s colData).length = colData.length := by
  rw [(sortedEntries_perm h s colData).length_eq, tmpMapOf_length]

theorem sortedEntries_index_nodup (h : Host) (s : SLM) (colData : List Str) :
    ((sortedEntries h s colData).map Entry.index).Nodup :=
  (((sortedEntries_perm h s colData).map Entry.index).symm).nodup
    (classifyP1_index_nodup colData s.caseInsensitive h.lower 0)

theorem sortedEntries_index_mem (h : Host) (s : SLM) (colData : List Str) (j : Nat) :
    j ∈ (sortedEntries h s colData).map Entry.index ↔ j < colData.length := by
  rw [((sortedEntries_perm h s colData).map Entry.index).mem_iff]
  simp only [tmpMapOf]
  rw [classifyP1_index_mem colData s.caseInsensitive h.lower 0 j]
  omega

theorem tmpMapOf_getD (h : Host) (s : SLM) (colData : List Str) (i : Nat)
    (hi : i < colData.length) :
    (tmpMapOf h s colData).getD i dfltEntry =
      { index := i,
        data := if s.caseInsensitive then h.lower (colData.getD i []) else colData.getD i [],
        isAscii := onlyAscii (colData.getD i []) } := by
  unfold tmpMapOf
  rw [classifyP1_getD colData s.caseInsensitive h.lower 0 i hi]
  simp

/-! Relating the build to the rank walk. -/

theorem getD_map {α β : Type} (f : α → β) (l : List α) (m : Nat) (d : β) (h : m < l.length) :
    (l.map f).getD m d = f (l.get ⟨m, h⟩) := by
  rw [getD_eq_get _ m d (by rw [List.length_map]; exact h)]
  simp [List.get_eq_getElem, List.getElem_map]

theorem get_eq_pair {α β : Type} (l : List (α × β)) (p : Nat) (hp : p < l.length) :
    l.get ⟨p, hp⟩ =
      ((l.map Prod.fst).get ⟨p, by rw [List.length_map]; exact hp⟩,
       (l.map Prod.snd).get ⟨p, by rw [List.length_map]; exact hp⟩) := by
  simp [List.get_eq_getElem, List.getElem_map]

/-- The sorted entry list is pairwise ordered by the data comparator, under the
agreement hypothesis between the active comparator and the data comparator. -/
theorem sortedEntries_sorted (h : Host) (s : SLM) (colData : List Str)
    (dcmp : Str → Str → Int) (L : CmpLaws dcmp)
    (hmix : ∀ x ∈ tmpMapOf h s colData, ∀ y ∈ tmpMapOf h s colData,
      sortCompare (collCtx h s) x y = dcmp x.data y.data) :
    (sortedEntries h s colData).Pairwise (fun x y => dcmp x.data y.data ≤ 0) := by
  have hP : (sortedEntries h s colData).Pairwise
      (fun x y => (fun a b => decide (sortCompare (collCtx h s) a b ≤ 0)) x y = true) := by
    apply pairwise_stableSort
    · intro a ha b hb
      rcases L.toCmpLawsW.le_or a.data b.data with hc | hc
      · left
        simp only [decide_eq_true_eq]
        rw [hmix a ha b hb]
        exact hc
      · right
        simp only [decide_eq_true_eq]
        rw [hmix b hb a ha]
        exact hc
    · intro a ha b hb c hc hab hbc
      simp only [decide_eq_true_eq] at hab hbc ⊢
      rw [hmix a ha b hb] at hab
      rw [hmix b hb c hc] at hbc
      rw [hmix a ha c hc]
      exact L.toCmpLawsW.cmp_trans _ _ _ hab hbc
  refine hP.imp_of_mem ?_
  intro a b ha hb hab
  simp only [decide_eq_true_eq] at hab
  have ha' := (sortedEntries_perm h s colData).mem_iff.mp ha
  have hb' := (sortedEntries_perm h s colData).mem_iff.mp hb
  rw [hmix a ha' b hb'] at hab
  exact hab

theorem sorted_data_getD (h : Host) (s : SLM) (colData : List Str) (p : Nat)
    (hp : p < (sortedEntries h s colData).length) :
    ((sortedEntries h s colData).map Entry.data).getD p [] =
      ((sortedEntries h s colData).getD p dfltEntry).data := by
  rw [getD_map Entry.data _ p [] hp, getD_eq_get _ p dfltEntry hp]

/-- Pointwise form of the sortedness of the data sequence. -/
theorem sorted_data_cmp_le (h : Host) (s : SLM) (colData : List Str)
    (dcmp : Str → Str → Int) (L : CmpLaws dcmp)
    (hmix : ∀ x ∈ tmpMapOf h s colData, ∀ y ∈ tmpMapOf h s colData,
      sortCompare (collCtx h s) x y = dcmp x.data y.data) :
    ∀ a b, a ≤ b → b < ((sortedEntries h s colData).map Entry.data).length →
      dcmp (((sortedEntries h s colData).map Entry.data).getD a [])
        (((sortedEntries h s colData).map Entry.data).getD b []) ≤ 0 := by
  intro a b hab hb
  have hb' : b < (sortedEntries h s colData).length := by
    rw [← List.length_map _ Entry.data]
    exact hb
  rcases Nat.eq_or_lt_of_le hab with rfl | hlt
  · exact le_of_eq (L.toCmpLawsW.cmp_refl _)
  · have ha' : a < (sortedEntries h s colData).length := by omega
    have hpw := sortedEntries_sorted h s colData dcmp L hmix
    rw [List.pairwise_iff_getElem] at hpw
    have hcore := hpw a b ha' hb' hlt
    rw [getD_map Entry.data _ a [] ha', getD_map Entry.data _ b [] hb']
    simpa [List.get_eq_getElem] using hcore

theorem build_eq_of_cons (h : Host) (s : SLM) (col : Nat) (colData : List Str)
    (e : Entry) (rest : List Entry) (hs : sortedEntries h s colData = e :: rest) :
    buildStringLocaleMappedIntColumn h s col colData =
      (Except.ok (scatterPairs (List.replicate (e :: rest).length none) (buildPairs (e :: rest))),
       { s with cache := cacheWrite s.cache col (scatterPairs (List.replicate (e :: rest).length none) (buildPairs (e :: rest))) }) := by
  unfold buildStringLocaleMappedIntColumn
  rw [hs]

theorem build_eq_of_nil (h : Host) (s : SLM) (col : Nat) (colData : List Str)
    (hs : sortedEntries h s colData = []) :
    buildStringLocaleMappedIntColumn h s col colData =
      (Except.error (), { s with cache := cacheWrite s.cache col [] }) := by
  unfold buildStringLocaleMappedIntColumn
  rw [hs]

/-- Where each original row's rank in the built array comes from: position `p`
of the sorted list holding that row's classified entry, whose walk rank is the
stored value. -/
theorem build_getD (h : Host) (s : SLM) (col : Nat) (colData : List Str)
    (A : RankArr) (hA : (buildStringLocaleMappedIntColumn h s col colData).1 = Except.ok A)
    (i : Nat) (hi : i < colData.length) :
    ∃ p, p < (sortedEntries h s colData).length ∧
      (sortedEntries h s colData).getD p dfltEntry = (tmpMapOf h s colData).getD i dfltEntry ∧
      A.getD i none =
        some ((sortedRanks ((sortedEntries h s colData).map Entry.data)).getD p 0) := by
  have hlen : (sortedEntries h s colData).length = colData.length :=
    sortedEntries_length h s colData
  have htmlen : (tmpMapOf h s colData).length = colData.length := tmpMapOf_length h s colData
  have hment : (tmpMapOf h s colData).getD i dfltEntry ∈ sortedEntries h s colData := by
    refine (sortedEntries_perm h s colData).mem_iff.mpr ?_
    exact getD_mem _ i dfltEntry (by omega)
  rw [List.mem_iff_getElem] at hment
  obtain ⟨p, hp, hpe⟩ := hment
  have hpe' : (sortedEntries h s colData).get ⟨p, hp⟩ = (tmpMapOf h s colData).getD i dfltEntry := by
    rw [List.get_eq_getElem]
    exact hpe
  refine ⟨p, hp, ?_, ?_⟩
  · rw [getD_eq_get _ p dfltEntry hp]
    exact hpe'
  · cases hs : sortedEntries h s colData with
    | nil =>
      rw [hs] at hp
      simp at hp
    | cons e rest =>
      have hAe : A = scatterPairs (List.replicate (e :: rest).length none)
          (buildPairs (e :: rest)) := by
        have h2 := congrArg Prod.fst (build_eq_of_cons h s col colData e rest hs)
        rw [hA] at h2
        exact Except.ok.inj h2
      have hfst : (buildPairs (e :: rest)).map Prod.fst = (e :: rest).map Entry.index :=
        buildPairs_map_fst _
      have hsnd : (buildPairs (e :: rest)).map Prod.snd =
          sortedRanks ((e :: rest).map Entry.data) := buildPairs_map_snd _
      have hpslen : (buildPairs (e :: rest)).length = (e :: rest).length := by
        rw [← List.length_map (buildPairs (e :: rest)) Prod.fst, hfst, List.length_map]
      have hp2 : p < (e :: rest).length := by
        rw [← hs]
        exact hp
      have hplt : p < (buildPairs (e :: rest)).length := by
        rw [hpslen]
        exact hp2
      have hidx : ((e :: rest).get ⟨p, hp2⟩).index = i := by
        have he : (e :: rest).get ⟨p, hp2⟩ = (tmpMapOf h s colData).getD i dfltEntry := by
          rw [← getD_eq_get (e :: rest) p dfltEntry hp2, ← hs, getD_eq_get _ p dfltEntry hp]
          exact hpe'
        rw [he, tmpMapOf_getD h s colData i hi]
      have c1 : ((buildPairs (e :: rest)).get ⟨p, hplt⟩).1 = i := by
        rw [← getD_map Prod.fst (buildPairs (e :: rest)) p 0 hplt, hfst,
          getD_map Entry.index (e :: rest) p 0 hp2]
        exact hidx
      have c2 : ((buildPairs (e :: rest)).get ⟨p, hplt⟩).2 =
          (sortedRanks ((e :: rest).map Entry.data)).getD p 0 := by
        rw [← getD_map Prod.snd (buildPairs (e :: rest)) p 0 hplt, hsnd]
      have hmem : (i, (sortedRanks ((e :: rest).map Entry.data)).getD p 0)
          ∈ buildPairs (e :: rest) := by
        have hpr : (buildPairs (e :: rest)).get ⟨p, hplt⟩ =
            (i, (sortedRanks ((e :: rest).map Entry.data)).getD p 0) := by
          rw [← c1, ← c2]
        rw [← hpr]
        exact List.get_mem (buildPairs (e :: rest)) p hplt
      rw [hAe]
      refine scatterPairs_getD_mem _ _ i _ ?_ hmem ?_
      · rw [hfst]
        have hnd := sortedEntries_index_nodup h s colData
        rw [hs] at hnd
        exact hnd
      · rw [List.length_replicate]
        have hel : (e :: rest).length = colData.length := by
          rw [← hs]
          exact hlen
        omega

/-! Characterizations of the effective sort comparator. -/

theorem sortCompare_some (collCmp : Str → Str → Int) (x y : Entry) :
    sortCompare { compare := fun u v => some (collCmp u v) } x y =
      if x.isAscii && y.isAscii then strCmp3 x.data y.data else collCmp x.data y.data := by
  by_cases hxy : (x.isAscii && y.isAscii) = true
  · simp [sortCompare, mixedCompare, sortNum, hxy, strCmp3]
  · simp [sortCompare, mixedCompare, sortNum, hxy]

theorem collCtx_intl (h : Host) (s : SLM) (hintl : h.intlAvailable = true) :
    collCtx h s = { compare := fun x y => some (h.intlCollator s.locale x y) } := by
  unfold collCtx collOf
  rw [hintl]
  simp

theorem sortCompare_collCtx (h : Host) (s : SLM) (hintl : h.intlAvailable = true)
    (x y : Entry) :
    sortCompare (collCtx h s) x y =
      if x.isAscii && y.isAscii then strCmp3 x.data y.data
      else h.intlCollator s.locale x.data y.data := by
  rw [collCtx_intl h s hintl]
  exact sortCompare_some (h.intlCollator s.locale) x y

theorem sortCompare_ordHost (s : SLM) (x y : Entry) :
    sortCompare (collCtx ordHost s) x y = strCmp3 x.data y.data := by
  rw [sortCompare_collCtx ordHost s rfl x y]
  by_cases hxy : (x.isAscii && y.isAscii) = true <;> simp [hxy, ordHost]

/-- Contiguity of equal values inside a sequence sorted by a lawful comparator. -/
theorem contig_of_cmp (ds : List Str) (dcmp : Str → Str → Int) (L : CmpLaws dcmp)
    (hp : ∀ a b, a ≤ b → b < ds.length → dcmp (ds.getD a []) (ds.getD b []) ≤ 0) :
    ∀ p q r, p ≤ q → q ≤ r → r < ds.length → ds.getD p [] = ds.getD r [] →
      ds.getD q [] = ds.getD p [] := by
  intro p q r hpq hqr hr hpr
  have h1 : dcmp (ds.getD p []) (ds.getD q []) ≤ 0 := hp p q hpq (by omega)
  have h2 : dcmp (ds.getD q []) (ds.getD r []) ≤ 0 := hp q r hqr hr
  rw [← hpr] at h2
  exact L.eq_of_le_le h2 h1

/-! Cache access lemmas. -/

theorem cacheRead_nil (i : Nat) : cacheRead [] i = none := by
  unfold cacheRead
  rw [List.getD_eq_getElem?_getD]
  simp

theorem cacheRead_cacheWrite_self (cache : List (Option RankArr)) (i : Nat) (v : RankArr) :
    cacheRead (cacheWrite cache i v) i = some v := by
  unfold cacheRead cacheWrite
  have hlen : i < (cache ++ List.replicate (i + 1 - cache.length) none).length := by
    rw [List.length_append, List.length_replicate]
    omega
  rw [List.getD_eq_getElem?_getD, List.getElem?_set_self hlen]
  rfl

theorem getSortColumnData_some (h : Host) (opts : Option InitOptions) (s : SLM)
    (colIdx : Nat) (colData : List Str) :
    getSortColumnData h opts (some s) colIdx colData =
      match cacheRead s.cache colIdx with
      | none => buildStringLocaleMappedIntColumn h s colIdx colData
      | some arr => (Except.ok arr, s) := rfl

theorem getSortColumnData_none (h : Host) (opts : Option InitOptions)
    (colIdx : Nat) (colData : List Str) :
    getSortColumnData h opts none colIdx colData =
      match cacheRead (initP1 h opts).cache colIdx with
      | none => buildStringLocaleMappedIntColumn h (initP1 h opts) colIdx colData
      | some arr => (Except.ok arr, initP1 h opts) := rfl

/-- Shared core of the idempotence argument: whatever settings state the first
call computed with, a successful first result is returned unchanged by a second
call on the resulting state. -/
theorem get_second_time (h : Host) (opts : Option InitOptions) (s0 : SLM)
    (colIdx : Nat) (colData : List Str) (r : RankArr) (s1 : SLM)
    (hfirst : (match cacheRead s0.cache colIdx with
      | none => buildStringLocaleMappedIntColumn h s0 colIdx colData
      | some arr => (Except.ok arr, s0)) = (Except.ok r, s1)) :
    getSortColumnData h opts (some s1) colIdx colData = (Except.ok r, s1) := by
  rw [getSortColumnData_some]
  cases hc : cacheRead s0.cache colIdx with
  | some arr =>
    have hf : ((Except.ok arr, s0) : Except Unit RankArr × SLM) = (Except.ok r, s1) := by
      rw [hc] at hfirst
      exact hfirst
    have h1 : arr = r := Except.ok.inj (congrArg Prod.fst hf)
    have h2 : s0 = s1 := congrArg Prod.snd hf
    subst h2
    subst h1
    rw [hc]
  | none =>
    have hf : buildStringLocaleMappedIntColumn h s0 colIdx colData = (Except.ok r, s1) := by
      rw [hc] at hfirst
      exact hfirst
    cases hsrt : sortedEntries h s0 colData with
    | nil =>
      rw [build_eq_of_nil h s0 colIdx colData hsrt] at hf
      have := congrArg Prod.fst hf
      simp at this
    | cons e rest =>
      rw [build_eq_of_cons h s0 colIdx colData e rest hsrt] at hf
      have h1 : scatterPairs (List.replicate (e :: rest).length none) (buildPairs (e :: rest))
          = r := Except.ok.inj (congrArg Prod.fst hf)
      have h2 : ({ s0 with cache := cacheWrite s0.cache colIdx (scatterPairs (List.replicate (e :: rest).length none) (buildPairs (e :: rest))) } : SLM) = s1 :=
        congrArg Prod.snd hf
      subst h1
      have h3 : cacheRead s1.cache colIdx = some (scatterPairs
          (List.replicate (e :: rest).length none) (buildPairs (e :: rest))) := by
        rw [← h2]
        exact cacheRead_cacheWrite_self s0.cache colIdx _
      rw [h3, ← h2]

/-! The two revisions' classification against the spec's normalization. -/

theorem classifyJs_eq_spec : ∀ (colData : List Str) (ci : Bool) (olower llower : Str → Str)
    (i : Nat), classifyJs ci olower llower i colData = specClassify ci olower llower i colData
  | [], _ci, _ol, _ll, _i => rfl
  | v :: rest, ci, ol, ll, i => by
    simp only [classifyJs, specClassify, specNormalize]
    rw [classifyJs_eq_spec rest]

theorem classifyP1_eq_spec : ∀ (colData : List Str) (ci : Bool) (lower : Str → Str)
    (i : Nat), classifyP1 ci lower i colData = specClassify ci lower lower i colData
  | [], _ci, _lower, _i => rfl
  | v :: rest, ci, lower, i => by
    simp only [classifyP1, specClassify, specNormalize]
    rw [classifyP1_eq_spec rest]
    by_cases hv : onlyAscii v = true <;> simp [hv]

theorem sortedRanks_head (ds : List Str) (hne : ds ≠ []) :
    (sortedRanks ds).getD 0 0 = 0 := by
  cases ds with
  | nil => exact absurd rfl hne
  | cons d rest => rfl

/-! Concrete instantiations used to evaluate the embedding. -/

/-- Settings state used by concrete evaluations: case-insensitive, empty cache. -/
def wSLM : SLM := { caseInsensitive := true, locale := "en", cache := [] }

/-- A small concrete column with a duplicate: `["b","a","b"]`. -/
def wData : List Str := [[98], [97], [98]]

/-- A two-row concrete column `["b","a"]`. -/
def wDataBA : List Str := [[98], [97]]

/-- The settings state after the first `getSortColumnData` call on `wDataBA`
with absent options (part_001's defaults: case-sensitive, ambient locale). -/
def wS1 : SLM := { caseInsensitive := false, locale := "en", cache := [some [some 1, some 0]] }

/-! The claims. -/

/-- C1: for every column built by `buildStringLocaleMappedIntColumn` and every
pair of row indices i, j, the resulting RankArray satisfies
`RankArray[i] <= RankArray[j]` iff the active comparator says the normalized
value of row i sorts no later than that of row j, and `RankArray[i] ==
RankArray[j]` iff the two normalized values compare equal.  The active
comparator is assumed consistent: it agrees on the column's classified entries
with a data comparator `dcmp` that is a strict weak ordering whose ties
coincide with equality (the spec's stated validity condition for the mixed
ordinal/collator comparator). -/
theorem claim_C1_order_and_tie_consistency (h : Host) (s : SLM) (col : Nat)
    (colData : List Str) (dcmp : Str → Str → Int) (L : CmpLaws dcmp)
    (hmix : ∀ x ∈ tmpMapOf h s colData, ∀ y ∈ tmpMapOf h s colData,
      sortCompare (collCtx h s) x y = dcmp x.data y.data)
    (A : RankArr) (hA : (buildStringLocaleMappedIntColumn h s col colData).1 = Except.ok A)
    (i j : Nat) (hi : i < colData.length) (hj : j < colData.length) :
    ∃ ri rj, A.getD i none = some ri ∧ A.getD j none = some rj ∧
      (ri ≤ rj ↔ sortCompare (collCtx h s) ((tmpMapOf h s colData).getD i dfltEntry)
        ((tmpMapOf h s colData).getD j dfltEntry) ≤ 0) ∧
      (ri = rj ↔ sortCompare (collCtx h s) ((tmpMapOf h s colData).getD i dfltEntry)
        ((tmpMapOf h s colData).getD j dfltEntry) = 0) := by
  obtain ⟨p, hp, hpeq, hpv⟩ := build_getD h s col colData A hA i hi
  obtain ⟨q, hq, hqeq, hqv⟩ := build_getD h s col colData A hA j hj
  have hdlen : ((sortedEntries h s colData).map Entry.data).length =
      (sortedEntries h s colData).length := List.length_map _ _
  have hiff := sortedRanks_iff ((sortedEntries h s colData).map Entry.data) dcmp L
    (sorted_data_cmp_le h s colData dcmp L hmix) p q (by omega) (by omega)
  have hmi : (tmpMapOf h s colData).getD i dfltEntry ∈ tmpMapOf h s colData :=
    getD_mem _ i dfltEntry (by rw [tmpMapOf_length]; omega)
  have hmj : (tmpMapOf h s colData).getD j dfltEntry ∈ tmpMapOf h s colData :=
    getD_mem _ j dfltEntry (by rw [tmpMapOf_length]; omega)
  have hdp : ((sortedEntries h s colData).map Entry.data).getD p [] =
      ((tmpMapOf h s colData).getD i dfltEntry).data := by
    rw [sorted_data_getD h s colData p hp, hpeq]
  have hdq : ((sortedEntries h s colData).map Entry.data).getD q [] =
      ((tmpMapOf h s colData).getD j dfltEntry).data := by
    rw [sorted_data_getD h s colData q hq, hqeq]
  have hcmp : sortCompare (collCtx h s) ((tmpMapOf h s colData).getD i dfltEntry)
      ((tmpMapOf h s colData).getD j dfltEntry) =
      dcmp (((sortedEntries h s colData).map Entry.data).getD p [])
        (((sortedEntries h s colData).map Entry.data).getD q []) := by
    rw [hmix _ hmi _ hmj, hdp, hdq]
  refine ⟨_, _, hpv, hqv, ?_, ?_⟩
  · rw [hcmp]
    exact hiff.1
  · rw [hcmp]
    exact hiff.2

/-- Witness for C1: the column `["b","a","b"]` under the ordinal collator; rows
0 and 2 hold equal values, and the built array is `[1,0,1]`. -/
theorem claim_C1_witness :
    ∃ ri rj, ([some 1, some 0, some 1] : RankArr).getD 0 none = some ri ∧
      ([some 1, some 0, some 1] : RankArr).getD 2 none = some rj ∧
      (ri ≤ rj ↔ sortCompare (collCtx ordHost wSLM) ((tmpMapOf ordHost wSLM wData).getD 0 dfltEntry)
        ((tmpMapOf ordHost wSLM wData).getD 2 dfltEntry) ≤ 0) ∧
      (ri = rj ↔ sortCompare (collCtx ordHost wSLM) ((tmpMapOf ordHost wSLM wData).getD 0 dfltEntry)
        ((tmpMapOf ordHost wSLM wData).getD 2 dfltEntry) = 0) :=
  claim_C1_order_and_tie_consistency ordHost wSLM 0 wData strCmp3 strCmp3_laws
    (fun x _ y _ => sortCompare_ordHost wSLM x y)
    [some 1, some 0, some 1] (by rfl) 0 2 (by decide) (by decide)

/-- C2: the rank-assignment walk over the sorted entries gives the first sorted
entry rank 0; a later entry at sorted position k+1 receives the previous
entry's rank when its normalized data equals the previous entry's, and rank
k+1 otherwise; every assigned rank lies in [0, n-1]; and the rank stored at a
sorted position is the earliest sorted position holding the same normalized
data (the start of its tie run).  Comparator assumptions as in C1. -/
theorem claim_C2_rank_walk (h : Host) (s : SLM) (colData : List Str)
    (dcmp : Str → Str → Int) (L : CmpLaws dcmp)
    (hmix : ∀ x ∈ tmpMapOf h s colData, ∀ y ∈ tmpMapOf h s colData,
      sortCompare (collCtx h s) x y = dcmp x.data y.data)
    (hne : colData ≠ []) :
    ((buildPairs (sortedEntries h s colData)).map Prod.snd).getD 0 0 = 0 ∧
    (∀ k, k + 1 < colData.length →
      (((sortedEntries h s colData).map Entry.data).getD (k + 1) [] =
          ((sortedEntries h s colData).map Entry.data).getD k [] →
        ((buildPairs (sortedEntries h s colData)).map Prod.snd).getD (k + 1) 0 =
          ((buildPairs (sortedEntries h s colData)).map Prod.snd).getD k 0) ∧
      (((sortedEntries h s colData).map Entry.data).getD (k + 1) [] ≠
          ((sortedEntries h s colData).map Entry.data).getD k [] →
        ((buildPairs (sortedEntries h s colData)).map Prod.snd).getD (k + 1) 0 = k + 1)) ∧
    (∀ k, k < colData.length →
      ((buildPairs (sortedEntries h s colData)).map Prod.snd).getD k 0 ≤ colData.length - 1) ∧
    (∀ k, k < colData.length →
      ((sortedEntries h s colData).map Entry.data).getD
          (((buildPairs (sortedEntries h s colData)).map Prod.snd).getD k 0) [] =
        ((sortedEntries h s colData).map Entry.data).getD k [] ∧
      ∀ m, m < ((buildPairs (sortedEntries h s colData)).map Prod.snd).getD k 0 →
        ((sortedEntries h s colData).map Entry.data).getD m [] ≠
          ((sortedEntries h s colData).map Entry.data).getD k []) := by
  have hn : ((sortedEntries h s colData).map Entry.data).length = colData.length := by
    rw [List.length_map, sortedEntries_length]
  rw [buildPairs_map_snd]
  have hp := sorted_data_cmp_le h s colData dcmp L hmix
  have hcontig := contig_of_cmp ((sortedEntries h s colData).map Entry.data) dcmp L hp
  refine ⟨?_, ?_, ?_, ?_⟩
  · refine sortedRanks_head _ ?_
    intro hnil
    rw [hnil] at hn
    exact hne (List.length_eq_zero.mp (by simpa using hn.symm))
  · intro k hk
    have hk' : k + 1 < ((sortedEntries h s colData).map Entry.data).length := by omega
    constructor
    · intro heq
      rw [sortedRanks_step _ k hk', if_pos heq]
    · intro hne2
      rw [sortedRanks_step _ k hk', if_neg hne2]
  · intro k hk
    have := sortedRanks_le_self ((sortedEntries h s colData).map Entry.data) k (by omega)
    omega
  · intro k hk
    exact sortedRanks_runStart _ hcontig k (by omega)

/-- Witness for C2: the walk on `["b","a","b"]` gives head rank 0, and the tie
row's rank (position 2, value "b") points back at position 1, the start of the
"b" run. -/
theorem claim_C2_witness :
    ((buildPairs (sortedEntries ordHost wSLM wData)).map Prod.snd).getD 0 0 = 0 ∧
    ((sortedEntries ordHost wSLM wData).map Entry.data).getD
        (((buildPairs (sortedEntries ordHost wSLM wData)).map Prod.snd).getD 2 0) [] =
      ((sortedEntries ordHost wSLM wData).map Entry.data).getD 2 [] :=
  ⟨(claim_C2_rank_walk ordHost wSLM wData strCmp3 strCmp3_laws
      (fun x _ y _ => sortCompare_ordHost wSLM x y) (by decide)).1,
   ((claim_C2_rank_walk ordHost wSLM wData strCmp3 strCmp3_laws
      (fun x _ y _ => sortCompare_ordHost wSLM x y) (by decide)).2.2.2 2 (by decide)).1⟩

/-- C3: the spec's German scenario.  The column
`["Zeder","Arzt","Ärzte","Ast","Baum"]` under the German locale with
case-insensitive comparison builds the RankArray `[4,0,1,2,3]` (indexed by
original rows 0..4): distinct strictly increasing ranks in the collated order
Arzt < Ärzte < Ast < Baum < Zeder, and the array is also stored in the cache. -/
theorem claim_C3_german_scenario :
    buildStringLocaleMappedIntColumn deHost
      (initP1 deHost (some { caseInsensitive := some true, locale := some "de" })) 0
      germanColumn =
      (Except.ok [some 4, some 0, some 1, some 2, some 3],
       { caseInsensitive := true, locale := "de",
         cache := [some [some 4, some 0, some 1, some 2, some 3]] }) := by
  rfl

/-- C10: with a non-empty values sequence the build succeeds, returns a total
RankArray covering all n rows (every slot filled, so every array access of the
loop was in bounds) and caches it; with the empty sequence the first-entry
read `tmpMap[0]` is the error branch — no RankArray is returned and the cache
entry has already been overwritten with the empty array. -/
theorem claim_C10_empty_column_safety (h : Host) (s : SLM) (col : Nat) (colData : List Str) :
    (colData ≠ [] → ∃ A, buildStringLocaleMappedIntColumn h s col colData =
        (Except.ok A, { s with cache := cacheWrite s.cache col A }) ∧
      A.length = colData.length ∧
      (∀ i, i < colData.length → ∃ r, A.getD i none = some r)) ∧
    (colData = [] → buildStringLocaleMappedIntColumn h s col colData =
        (Except.error (), { s with cache := cacheWrite s.cache col [] })) := by
  constructor
  · intro hne
    have hlen := sortedEntries_length h s colData
    have hpos : 0 < colData.length := List.length_pos.mpr hne
    cases hs : sortedEntries h s colData with
    | nil =>
      rw [hs] at hlen
      simp at hlen
      omega
    | cons e rest =>
      refine ⟨scatterPairs (List.replicate (e :: rest).length none) (buildPairs (e :: rest)),
        build_eq_of_cons h s col colData e rest hs, ?_, ?_⟩
      · rw [scatterPairs_length, List.length_replicate, ← hs, hlen]
      · intro i hi
        have hA : (buildStringLocaleMappedIntColumn h s col colData).1 =
            Except.ok (scatterPairs (List.replicate (e :: rest).length none)
              (buildPairs (e :: rest))) := by
          rw [build_eq_of_cons h s col colData e rest hs]
        obtain ⟨p, hp, _, hv⟩ := build_getD h s col colData _ hA i hi
        exact ⟨_, hv⟩
  · intro hnil
    subst hnil
    have hs : sortedEntries h s [] = [] := by
      have := sortedEntries_length h s []
      exact List.length_eq_zero.mp (by simpa using this)
    exact build_eq_of_nil h s col [] hs

/-- Witness for C10: the nonempty branch at the concrete column `["b","a"]`. -/
theorem claim_C10_witness :
    ∃ A, buildStringLocaleMappedIntColumn ordHost wSLM 0 wDataBA =
        (Except.ok A, { wSLM with cache := cacheWrite wSLM.cache 0 A }) ∧
      A.length = wDataBA.length ∧
      (∀ i, i < wDataBA.length → ∃ r, A.getD i none = some r) :=
  (claim_C10_empty_column_safety ordHost wSLM 0 wDataBA).1 (by decide)

/-- C4 counterexample: in the DT_localesort.js revision the ASCII branch of the
sort comparator is `x.data > y.data ? 1 : -1` and never returns 0, so comparing
an entry against an entry with equal normalized data (here: against itself)
yields strict less-than instead of equality. -/
theorem claim_C4_counterexample :
    mixedCompareJs strCmp3 { index := 0, data := [97], isAscii := true }
      { index := 0, data := [97], isAscii := true } = -1 := rfl

/-- C4 (amended): the part_001 revision's mixed comparator, under ECMAScript
SortCompare, is a strict weak ordering provided the Collator's comparison is
one (sign-antisymmetric and transitive) and agrees in sign with the ordinal
comparison on ASCII-classified entries (the spec's stated validity condition):
entries with equal normalized data compare equal (never strictly), the
relation is transitive, and strictly-less is equivalent to the swapped
strictly-greater. -/
theorem claim_C4_mixed_comparator_swo (collCmp : Str → Str → Int) (Lw : CmpLawsW collCmp)
    (hagree : ∀ x y : Entry, x.isAscii = true → y.isAscii = true →
      ((strCmp3 x.data y.data < 0 ↔ collCmp x.data y.data < 0) ∧
       (strCmp3 x.data y.data = 0 ↔ collCmp x.data y.data = 0))) :
    (∀ x y : Entry, x.data = y.data →
      sortCompare { compare := fun u v => some (collCmp u v) } x y = 0) ∧
    (∀ x y z : Entry,
      sortCompare { compare := fun u v => some (collCmp u v) } x y ≤ 0 →
      sortCompare { compare := fun u v => some (collCmp u v) } y z ≤ 0 →
      sortCompare { compare := fun u v => some (collCmp u v) } x z ≤ 0) ∧
    (∀ x y : Entry,
      sortCompare { compare := fun u v => some (collCmp u v) } x y < 0 ↔
      sortCompare { compare := fun u v => some (collCmp u v) } y x > 0) := by
  have hkey : ∀ x y : Entry,
      (sortCompare { compare := fun u v => some (collCmp u v) } x y < 0 ↔
        collCmp x.data y.data < 0) ∧
      (sortCompare { compare := fun u v => some (collCmp u v) } x y = 0 ↔
        collCmp x.data y.data = 0) := by
    intro x y
    rw [sortCompare_some]
    by_cases hxy : (x.isAscii && y.isAscii) = true
    · rw [if_pos hxy]
      exact hagree x y (Bool.and_eq_true_iff.mp hxy).1 (Bool.and_eq_true_iff.mp hxy).2
    · rw [if_neg hxy]
      exact ⟨Iff.rfl, Iff.rfl⟩
  refine ⟨?_, ?_, ?_⟩
  · intro x y hd
    refine (hkey x y).2.mpr ?_
    rw [hd]
    exact Lw.cmp_refl y.data
  · intro x y z hxy hyz
    have k1 := hkey x y
    have k2 := hkey y z
    have k3 := hkey x z
    have c1 : collCmp x.data y.data ≤ 0 := by
      rcases lt_or_eq_of_le hxy with hlt | heq
      · exact le_of_lt (k1.1.mp hlt)
      · exact le_of_eq (k1.2.mp heq)
    have c2 : collCmp y.data z.data ≤ 0 := by
      rcases lt_or_eq_of_le hyz with hlt | heq
      · exact le_of_lt (k2.1.mp hlt)
      · exact le_of_eq (k2.2.mp heq)
    have c3 : collCmp x.data z.data ≤ 0 := Lw.cmp_trans _ _ _ c1 c2
    rcases lt_or_eq_of_le c3 with hlt | heq
    · exact le_of_lt (k3.1.mpr hlt)
    · exact le_of_eq (k3.2.mpr heq)
  · intro x y
    have k1 := hkey x y
    have k2 := hkey y x
    have hflip := Lw.flip x.data y.data
    constructor
    · intro hlt
      have h1 := k1.1.mp hlt
      have h2 := hflip.mp h1
      have hn1 : ¬ sortCompare { compare := fun u v => some (collCmp u v) } y x < 0 :=
        fun hc => absurd (k2.1.mp hc) (by omega)
      have hn2 : ¬ sortCompare { compare := fun u v => some (collCmp u v) } y x = 0 :=
        fun hc => absurd (k2.2.mp hc) (by omega)
      omega
    · intro hgt
      have hn1 : ¬ collCmp y.data x.data < 0 := fun hc => absurd (k2.1.mpr hc) (by omega)
      have hn2 : ¬ collCmp y.data x.data = 0 := fun hc => absurd (k2.2.mpr hc) (by omega)
      have hpos : collCmp y.data x.data > 0 := by omega
      exact k1.1.mpr (hflip.mpr hpos)

/-- Witness for C4 (amended): the ordinal collator at concrete entries —
entries with equal data compare 0, and the flip law at "a" versus "b". -/
theorem claim_C4_witness :
    sortCompare { compare := fun u v => some (strCmp3 u v) }
      { index := 0, data := [97], isAscii := true }
      { index := 1, data := [97], isAscii := false } = 0 ∧
    (sortCompare { compare := fun u v => some (strCmp3 u v) }
      { index := 0, data := [97], isAscii := true }
      { index := 1, data := [98], isAscii := true } < 0 ↔
     sortCompare { compare := fun u v => some (strCmp3 u v) }
      { index := 1, data := [98], isAscii := true }
      { index := 0, data := [97], isAscii := true } > 0) :=
  ⟨(claim_C4_mixed_comparator_swo strCmp3 strCmp3_laws.toCmpLawsW
      (fun _x _y _ _ => ⟨Iff.rfl, Iff.rfl⟩)).1 _ _ rfl,
   (claim_C4_mixed_comparator_swo strCmp3 strCmp3_laws.toCmpLawsW
      (fun _x _y _ _ => ⟨Iff.rfl, Iff.rfl⟩)).2.2 _ _⟩

/-- C5: the js revision's init defaults caseInsensitive to true (absent options
or absent caseInsensitive), and makes it false only on an explicit false; the
part_001 revision instead computes `haveOptions && caseInsensitive === true`,
leaving caseInsensitive = false when the options are omitted — contradicting
the spec's stated default and the revision's own usage comment. -/
theorem claim_C5_caseInsensitive_default (h : Host) :
    (initJs none).caseInsensitive = true ∧
    (initJs (some { caseInsensitive := none, locale := none })).caseInsensitive = true ∧
    (initJs (some { caseInsensitive := some false, locale := none })).caseInsensitive = false ∧
    (initJs (some { caseInsensitive := some true, locale := none })).caseInsensitive = true ∧
    (initP1 h none).caseInsensitive = false ∧
    (initP1 h (some { caseInsensitive := none, locale := none })).caseInsensitive = false ∧
    (initP1 h (some { caseInsensitive := some true, locale := none })).caseInsensitive = true :=
  ⟨rfl, rfl, rfl, rfl, rfl, rfl, rfl⟩

/-- Host instantiation modelling Turkish case folding, where the ordinal
(locale-independent) lowercase of U+0130 differs from the locale-aware one. -/
def trHost : Host :=
  { lower := lowerUnicodeTr
    localeLower := localeLowerTr
    localeCompare := strCmp3
    intlAvailable := true
    intlCollator := fun _l => strCmp3
    ambientLanguage := "tr" }

/-- Settings state for the Turkish example. -/
def trSLM : SLM := { caseInsensitive := true, locale := "tr", cache := [] }

/-- C6 counterexample: part_001's build normalizes the non-ASCII value `"İ"`
(U+0130) with the locale-independent toLowerCase (giving `i` + combining dot,
`[105, 775]`), not with the locale-aware fold (which gives `[105]` under the
Turkish locale), so the non-ASCII branch of the claim fails on this revision. -/
theorem claim_C6_counterexample :
    onlyAscii [304] = false ∧
    ((tmpMapOf trHost trSLM [[304]]).getD 0 dfltEntry).data = trHost.lower [304] ∧
    trHost.lower [304] = [105, 775] ∧
    trHost.localeLower [304] = [105] ∧
    ((tmpMapOf trHost trSLM [[304]]).getD 0 dfltEntry).data ≠ trHost.localeLower [304] := by
  refine ⟨rfl, rfl, rfl, rfl, ?_⟩
  decide

/-- C6 (amended): the js revision's normalization is exactly the spec's —
ordinal fold for ASCII-only values, locale fold otherwise, identity when
case-sensitive; the part_001 revision behaves as the spec normalization with
the locale fold replaced by the single locale-independent toLowerCase. -/
theorem claim_C6_normalization_fold_choice :
    (∀ (ci : Bool) (olower llower : Str → Str) (i : Nat) (colData : List Str),
      classifyJs ci olower llower i colData = specClassify ci olower llower i colData) ∧
    (∀ (ci : Bool) (lower : Str → Str) (i : Nat) (colData : List Str),
      classifyP1 ci lower i colData = specClassify ci lower lower i colData) :=
  ⟨fun ci ol ll i colData => classifyJs_eq_spec colData ci ol ll i,
   fun ci lower i colData => classifyP1_eq_spec colData ci lower i⟩

/-- C7: when Intl is unavailable, part_001's fallback collator object evaluates
`x.localeCompare(y)` but has no return statement, so its compare returns
undefined for every pair — not a lexicographic three-way comparison.  At the
pair ("b","a") the discarded ordinal result would be 1, while Array.sort's
SortCompare treats the undefined as +0. -/
theorem claim_C7_fallback_returns_undefined :
    (∀ (intlCollator : String → Str → Str → Int) (localeCompare : Str → Str → Int)
      (locale : String) (x y : Str),
      (collOf false intlCollator localeCompare locale).compare x y = none) ∧
    strCmp3 [98] [97] = 1 ∧
    sortNum ((collOf false (fun _l _x _y => 0) strCmp3 "de").compare [98] [97]) = 0 := by
  refine ⟨?_, by decide, rfl⟩
  intro ic lc locale x y
  rfl

/-- C8: full invalidation replaces the cache with the empty array, so every
column reads as absent, leaves caseInsensitive and locale untouched, and the
next get on any column re-runs the build on the current column data. -/
theorem claim_C8_invalidate_all (h : Host) (opts : Option InitOptions) (s : SLM)
    (col : Nat) (colData : List Str) :
    cacheRead (invalidateStringLocaleMappedCache s).cache col = none ∧
    (invalidateStringLocaleMappedCache s).caseInsensitive = s.caseInsensitive ∧
    (invalidateStringLocaleMappedCache s).locale = s.locale ∧
    getSortColumnData h opts (some (invalidateStringLocaleMappedCache s)) col colData =
      buildStringLocaleMappedIntColumn h (invalidateStringLocaleMappedCache s) col colData := by
  refine ⟨cacheRead_nil col, rfl, rfl, ?_⟩
  rw [getSortColumnData_some,
    show (invalidateStringLocaleMappedCache s).cache = [] from rfl, cacheRead_nil col]

/-- C9: a second getSortColumnData on the state produced by a successful first
call, with the same column and unchanged column data, returns the identical
RankArray and leaves the state unchanged. -/
theorem claim_C9_get_idempotent (h : Host) (opts : Option InitOptions)
    (settings : Option SLM) (colIdx : Nat) (colData : List Str) (r : RankArr) (s1 : SLM)
    (hfirst : getSortColumnData h opts settings colIdx colData = (Except.ok r, s1)) :
    getSortColumnData h opts (some s1) colIdx colData = (Except.ok r, s1) := by
  cases settings with
  | none =>
    rw [getSortColumnData_none] at hfirst
    exact get_second_time h opts (initP1 h opts) colIdx colData r s1 hfirst
  | some s0 =>
    rw [getSortColumnData_some] at hfirst
    exact get_second_time h opts s0 colIdx colData r s1 hfirst

/-- Witness for C9: first call on `["b","a"]` from uninitialised settings
builds `[1,0]` and caches it; the second call returns the same pair. -/
theorem claim_C9_witness :
    getSortColumnData ordHost none (some wS1) 0 wDataBA = (Except.ok [some 1, some 0], wS1) :=
  claim_C9_get_idempotent ordHost none none 0 wDataBA [some 1, some 0] wS1 (by rfl)

end DT
